import Mathlib

/-!
Shallow embedding of the core of the tmc/arxiv repository (Go), covering:
the in-memory LRU cache (lru.go), the year-derivation and citation-graph
construction (citations.go), reference extraction and normalization
(references file), citation-edge maintenance (citations.go), the download
pipeline (download.go), archive extraction with its path-traversal defense
(download.go), and the resumable metadata harvester (sync.go).

Go strings are embedded as `List Char` (`Str`); the identifiers handled by
the program are ASCII, so byte-level Go operations (indexing, lexicographic
comparison, byte subtraction) correspond to `Char.toNat` operations.
Database tables are embedded as Lean lists, the filesystem as a list of
existing paths, and HTTP responses as inductive outcome values.
-/

namespace ArxivSpec

/-- Go strings, embedded as lists of characters. -/
abbrev Str := List Char

/-! ## LRU cache (lru.go)

`LRUCache` couples a `container/list` (most-recently-used at the front)
with a key map.  We embed the combined structure as a single association
list ordered front-to-back; the map is the set of keys of that list. -/

structure LRUCache (α : Type) where
  capacity : Nat
  /-- Front of the list is the most recently used entry. -/
  items : List (Str × α)

/-- `NewLRUCache` (lru.go): a non-positive capacity falls back to 500000. -/
def NewLRUCache (α : Type) (capacity : Int) : LRUCache α :=
  if capacity ≤ 0 then ⟨500000, []⟩ else ⟨capacity.toNat, []⟩

/-- `LRUCache.Get` (lru.go): on a hit, move the entry to the front
(most recently used) and return its value. -/
def lruGet {α : Type} (c : LRUCache α) (key : Str) : Option α × LRUCache α :=
  match c.items.find? (fun p => decide (p.1 = key)) with
  | some e =>
      (some e.2, { c with items := e :: c.items.eraseP (fun p => decide (p.1 = key)) })
  | none => (none, c)

/-- `LRUCache.Put` (lru.go): update-and-promote on an existing key;
otherwise, if the list has reached capacity, remove the back (least
recently used) entry, then push the new entry to the front. -/
def lruPut {α : Type} (c : LRUCache α) (key : Str) (v : α) : LRUCache α :=
  if (c.items.find? (fun p => decide (p.1 = key))).isSome then
    { c with items := (key, v) :: c.items.eraseP (fun p => decide (p.1 = key)) }
  else
    let items1 := if c.capacity ≤ c.items.length then c.items.dropLast else c.items
    { c with items := (key, v) :: items1 }

/-! ## Year derivation (citations.go, `yearFromID` inside `GetCitationGraph`)

Go compares `id[:2]` with the string literals "00" and "99" bytewise and
then does byte arithmetic `yy[i]-'0'`.  ASCII characters are single bytes,
so `Char.toNat` is the byte value. -/

/-- Go byte subtraction `a - b` (wraps modulo 256). -/
def byteSub (a b : Char) : Nat := (a.toNat + 256 - b.toNat) % 256

/-- Bytewise lexicographic `<=` on two-byte Go strings
(`[a0,a1] <= [b0,b1]`). -/
def strLe2 (a0 a1 b0 b1 : Char) : Bool :=
  decide (a0.toNat < b0.toNat) ||
    (decide (a0.toNat = b0.toNat) && decide (a1.toNat ≤ b1.toNat))

/-- `yearFromID` (citations.go): examines the first two characters of the
identifier; if `"00" <= id[:2] <= "99"` computes
`2000 + (id[0]-'0')*10 + (id[1]-'0')` and subtracts 100 when the result
exceeds 2090; otherwise returns 0. -/
def yearFromID (id : Str) : Int :=
  match id with
  | c0 :: c1 :: _ =>
      if strLe2 '0' '0' c0 c1 && strLe2 c0 c1 '9' '9' then
        let year : Int := 2000 + (byteSub c0 '0' : Nat) * 10 + (byteSub c1 '0' : Nat)
        if year > 2090 then year - 100 else year
      else 0
  | _ => 0

/-! ## Reference extraction and normalization (references file)

The regex battery and the filesystem walk are abstracted: a source tree is
given as the per-file lists of raw identifier strings matched by the
pattern battery, in walk order (text files) plus the per-PDF lists used by
the fallback.  Normalization and deduplication are embedded faithfully. -/

/-- Index of the last occurrence of a character
(Go `strings.LastIndex(id, "v")` for a one-byte needle). -/
def lastIndexOf (c : Char) : Str → Option Nat
  | [] => none
  | x :: xs =>
      match lastIndexOf c xs with
      | some i => some (i + 1)
      | none => if x = c then some 0 else none

/-- ASCII digit test, matching Go's bytewise `'0' <= c && c <= '9'`. -/
def isDigitByte (ch : Char) : Bool :=
  decide (48 ≤ ch.toNat) && decide (ch.toNat ≤ 57)

/-- `normalizeArxivID` (references file): if the substring after the last
`'v'` is nonempty and all digits, and the `'v'` is not the first
character, strip it and the `'v'`. -/
def normalizeArxivID (id : Str) : Str :=
  match lastIndexOf 'v' id with
  | some idx =>
      if 0 < idx then
        let suffix := id.drop (idx + 1)
        if suffix.all isDigitByte && !suffix.isEmpty then id.take idx else id
      else id
  | none => id

/-- Abstraction of a source tree: for each bibliography-relevant file
(`.bbl`/`.bib`/`.tex`), in walk order, the raw identifiers matched by the
pattern battery (in line then pattern order); and likewise for each
embedded PDF handled by the fallback (a PDF on which `pdftotext` fails
contributes an empty list). -/
structure SrcTree where
  textFiles : List (List Str)
  pdfFiles : List (List Str)

/-- One step of the dedup loop in `ExtractReferences`: normalize the raw
identifier and append it unless already seen.  The `seen` set is exactly
the set of elements of the accumulator, since the code adds to both
together. -/
def addRef (acc : List Str) (raw : Str) : List Str :=
  let n := normalizeArxivID raw
  if n ∈ acc then acc else acc ++ [n]

/-- `ExtractReferences` (references file): empty source path yields nil;
otherwise dedup the normalized matches from the text files, falling back
to the PDFs when no text-file reference was found and PDFs exist. -/
def ExtractReferences (srcPath : Str) (t : SrcTree) : List Str :=
  if srcPath = [] then []
  else
    let refs := t.textFiles.flatten.foldl addRef []
    if refs = [] ∧ t.pdfFiles ≠ [] then t.pdfFiles.flatten.foldl addRef [] else refs

/-! ## Citation edges (citations.go)

The `citations` table is embedded as a list of `(from_id, to_id)` pairs.
The GORM calls whose error results the code discards are given explicit
oracle inputs so that "failing database operations" are representable. -/

abbrev Edge := Str × Str

/-- Results of the database calls made by `UpdateCitations`, as the code
would observe them if it looked; the code discards them. -/
structure DBOracle where
  /-- Error result of the `Delete` call (discarded by the code). -/
  deleteErr : Option Str
  /-- Error result of the per-reference `FirstOrCreate` call
  (discarded by the code). -/
  insertErr : Str → Option Str

/-- One `FirstOrCreate` step: skip self-citations, insert-if-absent
otherwise; the database error is discarded. -/
def insertCitation (db : DBOracle) (paperID : Str) (acc : List Edge) (refID : Str) :
    List Edge :=
  if refID = paperID then acc
  else
    let _ := db.insertErr refID
    if (paperID, refID) ∈ acc then acc else acc ++ [(paperID, refID)]

/-- `UpdateCitations` (citations.go): early-nil on empty source path or
empty extraction; otherwise delete all edges from `paperID` and re-insert
one edge per non-self reference.  The second component is the returned
error value. -/
def UpdateCitations (edges : List Edge) (paperID srcPath : Str) (t : SrcTree)
    (db : DBOracle) : List Edge × Option Str :=
  if srcPath = [] then (edges, none)
  else
    let refs := ExtractReferences srcPath t
    if refs = [] then (edges, none)
    else
      let _ := db.deleteErr
      let deleted := edges.filter (fun e => decide (e.1 ≠ paperID))
      (refs.foldl (insertCitation db paperID) deleted, none)

/-- One paper as seen by `RebuildAllCitations`' loop: its id, source path,
source-tree content, and the database outcomes of its update. -/
structure RebuildPaper where
  id : Str
  srcPath : Str
  tree : SrcTree
  db : DBOracle

/-- The per-paper loop of `RebuildAllCitations` (citations.go), including
its `if err != nil then return err` branch. -/
def rebuildLoop (edges : List Edge) : List RebuildPaper → List Edge × Option Str
  | [] => (edges, none)
  | p :: ps =>
      match UpdateCitations edges p.id p.srcPath p.tree p.db with
      | (edges', some e) => (edges', some e)
      | (edges', none) => rebuildLoop edges' ps

/-- `RebuildAllCitations` (citations.go): clear the table, then run the
per-paper loop over every paper with a downloaded source. -/
def RebuildAllCitations (papers : List RebuildPaper) : List Edge × Option Str :=
  rebuildLoop [] papers

/-- The same rebuild with the loop's abort branch removed: every paper is
processed unconditionally. -/
def rebuildAllNoAbort (papers : List RebuildPaper) : List Edge :=
  papers.foldl (fun es p => (UpdateCitations es p.id p.srcPath p.tree p.db).1) []

/-! ## Citation graph construction (citations.go, `GetCitationGraph`)

The query results feeding the construction (the reference rows, the citing
rows, and the reference-to-reference rows) are abstracted as input lists;
the node/edge accumulation with its dedup keys is embedded faithfully. -/

structure GraphNode where
  id : Str
  title : Str
  authors : Str
  year : Int
  citations : Nat
  cached : Bool
deriving DecidableEq

structure GraphEdge where
  source : Str
  target : Str
deriving DecidableEq

/-- Internal state of `GetCitationGraph`: the `nodeSet` map (embedded as
an association list in insertion order), the accumulated edge list, and
the `edgeSet` key set. -/
structure GraphSt where
  nodeSet : List (Str × GraphNode)
  edges : List GraphEdge
  edgeSet : List Str

/-- `addNode` closure (citations.go): insert-if-absent keyed by id. -/
def addNode (st : GraphSt) (id : Str) (node : GraphNode) : GraphSt :=
  if (st.nodeSet.find? (fun p => decide (p.1 = id))).isSome then st
  else { st with nodeSet := st.nodeSet ++ [(id, node)] }

/-- The dedup key `from + "->" + to` used by the `addEdge` closure. -/
def edgeKey (f t : Str) : Str := f ++ ('-' :: '>' :: []) ++ t

/-- `addEdge` closure (citations.go): append the edge unless its key was
already seen. -/
def addEdge (st : GraphSt) (f t : Str) : GraphSt :=
  if edgeKey f t ∈ st.edgeSet then st
  else { st with edges := st.edges ++ [⟨f, t⟩], edgeSet := st.edgeSet ++ [edgeKey f t] }

/-- `GetCitationGraph` (citations.go): add the center node, then one node
and center-to-reference edge per reference row, then one node and
citing-to-center edge per citing row, then the reference-to-reference
edges returned by the intersection query.  Nodes are the values of the
`nodeSet` map. -/
def GetCitationGraph (center : GraphNode) (refNodes citingNodes : List GraphNode)
    (refRefs : List (Str × Str)) : List GraphNode × List GraphEdge :=
  let st0 : GraphSt := ⟨[], [], []⟩
  let st1 := addNode st0 center.id center
  let st2 := refNodes.foldl (fun st r => addEdge (addNode st r.id r) center.id r.id) st1
  let st3 := citingNodes.foldl (fun st n => addEdge (addNode st n.id n) n.id center.id) st2
  let st4 := refRefs.foldl (fun st e => addEdge st e.1 e.2) st3
  (st4.nodeSet.map (fun p => p.2), st4.edges)

/-! ## Download pipeline (download.go)

The store is embedded as the single affected paper record plus the
citation table; the filesystem as the list of existing artifact paths
(directories created by `MkdirAll` along the way are not artifacts and are
not tracked).  `filepath.Join` is embedded as `'/'`-concatenation, which
agrees with Go on the already-clean path components the pipeline builds.
HTTP outcomes are inductive values; the body of a successful source
response carries the extracted tree abstraction used by
`UpdateCitations`. -/

structure PaperRec where
  id : Str
  pdfPath : Option Str
  srcPath : Option Str
  pdfDownloaded : Bool
  srcDownloaded : Bool
deriving DecidableEq

structure Store where
  paper : PaperRec
  citations : List Edge
deriving DecidableEq

/-- Existing artifact paths on disk. -/
abbrev FS := List Str

def insertPath (p : Str) (fs : FS) : FS := if p ∈ fs then fs else p :: fs

/-- `DownloadOptions` (download.go), restricted to the fields the claims
concern. -/
structure DownloadOpts where
  wantPDF : Bool
  wantSource : Bool
deriving DecidableEq

inductive DlErr where
  | net
  | status
  | copy
deriving DecidableEq

/-- Outcome of the HTTP GET for a PDF: request error, non-200 status, or
a 200 body whose copy to the destination file either fails or succeeds. -/
inductive HttpResp where
  | netErr
  | badStatus
  | body (copyFail : Bool)
deriving DecidableEq

/-- Outcome of the HTTP GET for a source archive; a successful body
carries the source-tree abstraction that extraction materializes. -/
inductive SrcResp where
  | netErr
  | badStatus
  | body (copyFail : Bool) (tree : SrcTree)

/-- `paperPrefix` (download.go): archive prefix for legacy IDs, first four
characters otherwise. -/
def paperShard (id : Str) : Str :=
  if '/' ∈ id then id.takeWhile (fun c => decide (c ≠ '/'))
  else if 4 ≤ id.length then id.take 4 else id

/-- Destination of a PDF: `root/pdf/<shard>/<id>.pdf`. -/
def pdfDestPath (root id : Str) : Str :=
  root ++ ("/pdf/".toList) ++ paperShard id ++ ('/' :: id) ++ (".pdf".toList)

/-- Destination directory of a source tree: `root/src/<shard>/<id>`. -/
def srcDestPath (root id : Str) : Str :=
  root ++ ("/src/".toList) ++ paperShard id ++ ('/' :: id)

/-- `downloadPDF` (download.go): skip if the file exists; otherwise GET,
create the file, stream the body, and on a copy error remove the partial
file and return the error.  The `Nat` counts HTTP requests. -/
def downloadPDF (root id : Str) (fs : FS) (resp : HttpResp) :
    FS × Nat × Except DlErr Str :=
  let path := pdfDestPath root id
  if path ∈ fs then (fs, 0, .ok path)
  else
    match resp with
    | .netErr => (fs, 1, .error .net)
    | .badStatus => (fs, 1, .error .status)
    | .body copyFail =>
        let fs1 := insertPath path fs
        if copyFail then (fs1.erase path, 1, .error .copy) else (fs1, 1, .ok path)

/-- `downloadSource` (download.go): skip if the directory exists;
otherwise GET to a temporary file (outside the artifact tree) and
materialize the destination directory — extraction cannot fail overall
because of the raw-file fallback, so a successful body always yields the
directory. -/
def downloadSource (root id : Str) (fs : FS) (resp : SrcResp) :
    FS × Nat × Except DlErr Str :=
  let dir := srcDestPath root id
  if dir ∈ fs then (fs, 0, .ok dir)
  else
    match resp with
    | .netErr => (fs, 1, .error .net)
    | .badStatus => (fs, 1, .error .status)
    | .body copyFail _ =>
        if copyFail then (fs, 1, .error .copy) else (insertPath dir fs, 1, .ok dir)

def treeOf : SrcResp → SrcTree
  | .body _ t => t
  | _ => ⟨[], []⟩

/-- The empty oracle: every database call succeeds. -/
def dbOK : DBOracle := ⟨none, fun _ => none⟩

/-- The source half of `DownloadPaper` (download.go): download when the
flag is unset, then atomically set `src_path`+`src_downloaded` and run the
best-effort `UpdateCitations` (whose error is discarded).  `n` carries the
HTTP-request count of the PDF half. -/
def sourcePhase (root : Str) (st : Store) (fs : FS) (n : Nat) (opts : DownloadOpts)
    (sr : SrcResp) : Store × FS × Nat × Option DlErr :=
  if opts.wantSource && !st.paper.srcDownloaded then
    match downloadSource root st.paper.id fs sr with
    | (fs2, n2, .error e) => (st, fs2, n + n2, some e)
    | (fs2, n2, .ok sp) =>
        let paper2 := { st.paper with srcPath := some sp, srcDownloaded := true }
        let cites2 := (UpdateCitations st.citations st.paper.id sp (treeOf sr) dbOK).1
        ({ paper := paper2, citations := cites2 }, fs2, n + n2, none)
  else (st, fs, n, none)

/-- `DownloadPaper` (download.go): PDF half then source half; each half is
skipped when the store's downloaded flag is already set, and an error in
the PDF half returns before the source half runs. -/
def DownloadPaper (root : Str) (st : Store) (fs : FS) (opts : DownloadOpts)
    (pr : HttpResp) (sr : SrcResp) : Store × FS × Nat × Option DlErr :=
  if opts.wantPDF && !st.paper.pdfDownloaded then
    match downloadPDF root st.paper.id fs pr with
    | (fs1, n1, .error e) => (st, fs1, n1, some e)
    | (fs1, n1, .ok p) =>
        let paper1 := { st.paper with pdfPath := some p, pdfDownloaded := true }
        sourcePhase root { st with paper := paper1 } fs1 n1 opts sr
  else sourcePhase root st fs 0 opts sr

/-! ## Resumable metadata harvester (sync.go, `SyncMetadata`)

One run is replayed against the sequence of `ListRecords` outcomes it
observes.  Paper records are abstract identifiers.  Every call to
`saveResumptionToken` emits a `SyncEvent` snapshot: the committed store
content, the in-memory batch, the token being persisted, the pages of this
run up to and including the page that produced that token, and all pages
consumed so far.  A run interrupted by cancellation simply observes no
further responses. -/

inductive PageResp where
  | ok (papers : List Str) (token : Str)
  | fail
deriving DecidableEq

structure SyncEvent where
  committed : List Str
  batch : List Str
  token : Str
  tokenPages : List (List Str)
  consumed : List (List Str)
deriving DecidableEq

structure SyncSt where
  committed : List Str
  batch : List Str
  tokenRow : Option Str
  events : List SyncEvent
deriving DecidableEq

/-- The page loop of `SyncMetadata` (sync.go): append the page to the
batch; commit the batch when it reaches `batchSize`; on a continuation
token persist it (before the rate-limit sleep) and continue; on an empty
token flush the remainder and clear the persisted token; on a request
failure persist the last known-good token, if any, and return. -/
def syncLoop (batchSize : Nat) (st : SyncSt) (curToken : Str)
    (curTokenPages consumed : List (List Str)) : List PageResp → SyncSt
  | [] => st
  | .fail :: _ =>
      if curToken ≠ [] then
        { st with tokenRow := some curToken,
                  events := st.events ++
                    [⟨st.committed, st.batch, curToken, curTokenPages, consumed⟩] }
      else st
  | .ok ps tok :: rest =>
      let batch1 := st.batch ++ ps
      let consumed1 := consumed ++ [ps]
      let (committed1, batch2) :=
        if batchSize ≤ batch1.length then (st.committed ++ batch1, [])
        else (st.committed, batch1)
      if tok ≠ [] then
        let st1 : SyncSt :=
          { committed := committed1, batch := batch2, tokenRow := some tok,
            events := st.events ++ [⟨committed1, batch2, tok, consumed1, consumed1⟩] }
        syncLoop batchSize st1 tok consumed1 consumed1 rest
      else
        { committed := committed1 ++ batch2, batch := [], tokenRow := none,
          events := st.events }

/-- `SyncMetadata` (sync.go): a zero batch size defaults to 1000; the
resumption token persisted by a previous run (empty when absent) seeds the
loop. -/
def SyncMetadata (batchSizeOpt : Nat) (initToken : Str) (pages : List PageResp) :
    SyncSt :=
  let batchSize := if batchSizeOpt = 0 then 1000 else batchSizeOpt
  syncLoop batchSize
    ⟨[], [], if initToken = [] then none else some initToken, []⟩
    initToken [] [] pages

/-! ## Archive extraction and path traversal (download.go, `extractSource`)

`filepath.Clean` (Unix) is embedded component-wise: split on `'/'`, drop
empty and `"."` components, resolve `".."` against a stack (dropping it at
the root, keeping it when unmatched in a relative path), and re-render.
`filepath.Join(a, b)` of nonempty operands is `Clean(a + "/" + b)`. -/

/-- Split a path on `'/'` (keeping empty segments, as `strings.Split`
does). -/
def splitSlash : Str → List Str
  | [] => [[]]
  | c :: cs =>
      match splitSlash cs with
      | [] => [[c]]
      | g :: gs => if c = '/' then [] :: g :: gs else (c :: g) :: gs

/-- The path's meaningful components: empty and `"."` segments dropped. -/
def pathElems (p : Str) : List Str :=
  (splitSlash p).filter (fun g => !(g.isEmpty || g == ['.']))

/-- The `".."` resolution stack of `filepath.Clean`: `acc` is the output
built so far, most recent component first.  At the root an unmatched
`".."` is dropped; in a relative path it is kept. -/
def cleanElems (rooted : Bool) : List Str → List Str → List Str
  | acc, [] => acc.reverse
  | acc, c :: cs =>
      if c = ['.', '.'] then
        match acc with
        | [] => if rooted then cleanElems rooted [] cs
                else cleanElems rooted [['.', '.']] cs
        | top :: rest =>
            if top = ['.', '.'] then cleanElems rooted (c :: acc) cs
            else cleanElems rooted rest cs
      else cleanElems rooted (c :: acc) cs

/-- Interleave `'/'` between components. -/
def interS : List Str → Str
  | [] => []
  | [a] => a
  | a :: as' => a ++ '/' :: interS as'

/-- Render a cleaned component list back into a path ( `"/"`-rooted paths
keep their leading slash; an empty relative result is `"."`). -/
def renderPath (rooted : Bool) (l : List Str) : Str :=
  if rooted then '/' :: interS l
  else if l = [] then ['.'] else interS l

def isRooted (p : Str) : Bool :=
  match p with
  | c :: _ => c = '/'
  | [] => false

/-- `filepath.Clean` for Unix paths. -/
def cleanPath (p : Str) : Str :=
  renderPath (isRooted p) (cleanElems (isRooted p) [] (pathElems p))

/-- `filepath.Join` of two nonempty operands. -/
def joinPath (a b : Str) : Str := cleanPath (a ++ '/' :: b)

inductive TypeFlag where
  | dir
  | reg
  | other
deriving DecidableEq

structure TarEntry where
  name : Str
  flag : TypeFlag
deriving DecidableEq

/-- The artifact paths an entry makes `extractSource` write: nothing when
the cleaned name starts with `".."` (the traversal defense) or for type
flags other than directory/regular; otherwise the joined target (the
`MkdirAll`/`Create` argument). -/
def entryWrites (dstDir : Str) (e : TarEntry) : List Str :=
  let name := cleanPath e.name
  if (['.', '.'] : Str).isPrefixOf name then []
  else
    match e.flag with
    | .dir => [joinPath dstDir name]
    | .reg => [joinPath dstDir name]
    | .other => []

/-- All paths written by the entry loop of `extractSource`
(download.go). -/
def extractSourceWrites (dstDir : Str) (entries : List TarEntry) : List Str :=
  (entries.map (entryWrites dstDir)).flatten

/-- Invariant of the graph-construction state: the node map has distinct
keys, each key equals its node's id (as at every call site), and the edge
list's keys are exactly the `edgeSet` entries, which are distinct. -/
def GraphInv (st : GraphSt) : Prop :=
  ((st.nodeSet.map Prod.fst).Nodup ∧ ∀ p ∈ st.nodeSet, p.1 = p.2.id)
  ∧ (st.edges.map (fun e => edgeKey e.source e.target) = st.edgeSet ∧ st.edgeSet.Nodup)

/-! ## Helper lemmas -/

theorem updateCitations_snd (edges : List Edge) (paperID srcPath : Str) (t : SrcTree)
    (db : DBOracle) : (UpdateCitations edges paperID srcPath t db).2 = none := by
  unfold UpdateCitations
  split
  · rfl
  · dsimp only
    split
    · rfl
    · rfl

theorem rebuildLoop_no_abort : ∀ (papers : List RebuildPaper) (edges : List Edge),
    rebuildLoop edges papers
      = (papers.foldl (fun es p => (UpdateCitations es p.id p.srcPath p.tree p.db).1) edges,
         none) := by
  intro papers
  induction papers with
  | nil => intro edges; rfl
  | cons p ps ih =>
      intro edges
      have h := updateCitations_snd edges p.id p.srcPath p.tree p.db
      rcases hx : UpdateCitations edges p.id p.srcPath p.tree p.db with ⟨es, err⟩
      rw [hx] at h
      subst h
      simp only [rebuildLoop, hx, List.foldl_cons]
      exact ih es

theorem map_fst_eraseP {α : Type} (k : Str) : ∀ (l : List (Str × α)),
    (l.eraseP (fun p => decide (p.1 = k))).map Prod.fst = (l.map Prod.fst).erase k := by
  intro l
  induction l with
  | nil => rfl
  | cons q t ih =>
      by_cases hq : q.1 = k
      · simp [List.eraseP_cons, hq, List.erase_cons]
      · simp [List.eraseP_cons, hq, List.erase_cons, ih]

/-! ## Claim theorems -/

/-- C6 counterexample: the claim says a legacy archive-prefixed ID whose
date segment starts with 99, such as `hep-th/9901001`, derives year 1999;
`yearFromID` examines the first two characters of the full identifier
(`"he"`), which fail the `"00" <= yy <= "99"` guard, so it derives 0. -/
theorem yearFromID_legacy_cex :
    yearFromID ("hep-th/9901001".toList) ≠ 1999
    ∧ yearFromID ("hep-th/9901001".toList) = 0 := by decide

/-- C6 (amended): for an identifier whose first two characters are ASCII
digits (the date-encoding segment leads the identifier, as in new-format
IDs or a bare legacy date segment), two-digit values 91-99 derive
1991-1999 and values 00-90 derive 2000-2090; a legacy archive-prefixed ID
such as `hep-th/9901001` is not covered by the guard and derives 0, while
the bare segment `9901001` derives 1999, `0504123` derives 2005, and
`9504001` derives 1995, not 2095. -/
theorem yearFromID_two_digit (c0 c1 : Char) (rest : Str)
    (h0 : 48 ≤ c0.toNat) (h1 : c0.toNat ≤ 57) (h2 : 48 ≤ c1.toNat) (h3 : c1.toNat ≤ 57) :
    yearFromID (c0 :: c1 :: rest)
      = (if 91 ≤ ((c0.toNat : Int) - 48) * 10 + ((c1.toNat : Int) - 48)
         then 1900 + (((c0.toNat : Int) - 48) * 10 + ((c1.toNat : Int) - 48))
         else 2000 + (((c0.toNat : Int) - 48) * 10 + ((c1.toNat : Int) - 48)))
    ∧ yearFromID ("hep-th/9901001".toList) = 0
    ∧ yearFromID ("9901001".toList) = 1999
    ∧ yearFromID ("0504123".toList) = 2005
    ∧ yearFromID ("9504001".toList) = 1995 := by
  refine ⟨?_, by decide, by decide, by decide, by decide⟩
  simp only [yearFromID, strLe2, byteSub]
  have e0 : ('0' : Char).toNat = 48 := rfl
  have e9 : ('9' : Char).toNat = 57 := rfl
  rw [e0, e9]
  split
  · next h =>
      simp only [Bool.and_eq_true, Bool.or_eq_true, decide_eq_true_eq] at h
      split
      · next hy =>
          split
          · next hz => omega
          · next hz => omega
      · next hy =>
          split
          · next hz => omega
          · next hz => omega
  · next h =>
      simp only [Bool.and_eq_true, Bool.or_eq_true, decide_eq_true_eq] at h
      omega

/-- Witness for the C6 amended theorem at the new-format ID `0504123`. -/
theorem yearFromID_two_digit_witness :
    (48 ≤ ('0' : Char).toNat ∧ ('0' : Char).toNat ≤ 57
      ∧ 48 ≤ ('5' : Char).toNat ∧ ('5' : Char).toNat ≤ 57)
    ∧ yearFromID ('0' :: '5' :: "04123".toList)
        = (if 91 ≤ ((('0' : Char).toNat : Int) - 48) * 10 + ((('5' : Char).toNat : Int) - 48)
           then 1900 + (((('0' : Char).toNat : Int) - 48) * 10 + ((('5' : Char).toNat : Int) - 48))
           else 2000 + (((('0' : Char).toNat : Int) - 48) * 10 + ((('5' : Char).toNat : Int) - 48))) :=
  ⟨by decide,
   (yearFromID_two_digit '0' '5' ("04123".toList)
     (by decide) (by decide) (by decide) (by decide)).1⟩

/-- C10: `UpdateCitations` returns nil on every path (the database errors
from `Delete` and `FirstOrCreate` are discarded), so the per-paper
error-return branch in `RebuildAllCitations`' loop is unreachable and the
rebuild processes every paper. -/
theorem updateCitations_nil_rebuild_total (edges : List Edge) (paperID srcPath : Str)
    (t : SrcTree) (db : DBOracle) (papers : List RebuildPaper) :
    (UpdateCitations edges paperID srcPath t db).2 = none
    ∧ RebuildAllCitations papers = (rebuildAllNoAbort papers, none) :=
  ⟨updateCitations_snd edges paperID srcPath t db,
   by unfold RebuildAllCitations rebuildAllNoAbort; exact rebuildLoop_no_abort papers []⟩

/-- C9: `Put` on a cache at capacity with a new key evicts exactly the
single least-recently-used (back) entry before inserting at the front;
`Get` on a hit promotes the entry to most-recently-used; with capacity 3,
inserting A, B, C, D evicts A, and after `Get(B)` inserting E evicts C,
not B. -/
theorem lru_evict_promote {α : Type} (c c' : LRUCache α) (key : Str) (v : α) (key' : Str)
    (h1 : c.items.length = c.capacity)
    (h2 : c.items.find? (fun p => decide (p.1 = key)) = none)
    (h3 : key' ∈ c'.items.map Prod.fst) :
    (lruPut c key v).items = (key, v) :: c.items.dropLast
    ∧ ((lruGet c' key').2.items.map Prod.fst)
        = key' :: ((c'.items.map Prod.fst).erase key')
    ∧ (((lruPut (lruPut (lruPut (lruPut (NewLRUCache Nat 3) ("A".toList) 1) ("B".toList) 2)
          ("C".toList) 3) ("D".toList) 4)).items.map Prod.fst)
        = ["D".toList, "C".toList, "B".toList]
    ∧ ((lruPut (lruGet (lruPut (lruPut (lruPut (lruPut (NewLRUCache Nat 3) ("A".toList) 1)
          ("B".toList) 2) ("C".toList) 3) ("D".toList) 4) ("B".toList)).2
          ("E".toList) 5).items.map Prod.fst)
        = ["E".toList, "B".toList, "D".toList] := by
  refine ⟨?_, ?_, by decide, by decide⟩
  · have hcap : c.capacity ≤ c.items.length := Nat.le_of_eq h1.symm
    simp [lruPut, h2, hcap]
  · have hsome : (c'.items.find? (fun p => decide (p.1 = key'))).isSome := by
      rw [List.find?_isSome]
      obtain ⟨q, hq, hq1⟩ := List.mem_map.1 h3
      exact ⟨q, hq, by simp [hq1]⟩
    obtain ⟨e, he⟩ := Option.isSome_iff_exists.1 hsome
    have he1 : e.1 = key' := by simpa using List.find?_some he
    simp [lruGet, he, map_fst_eraseP, he1]

/-- Witness for the C9 theorem: a concrete full cache with a new key and a
concrete cache with a present key. -/
theorem lru_evict_promote_witness :
    (([(("A".toList : Str), (1 : Nat)), ("B".toList, 2)] : List (Str × Nat)).length = 2
      ∧ ([(("A".toList : Str), (1 : Nat)), ("B".toList, 2)] : List (Str × Nat)).find?
          (fun p => decide (p.1 = "C".toList)) = none
      ∧ ("B".toList : Str) ∈ ([(("A".toList : Str), (1 : Nat)), ("B".toList, 2)]
          : List (Str × Nat)).map Prod.fst)
    ∧ (lruPut (⟨2, [("A".toList, 1), ("B".toList, 2)]⟩ : LRUCache Nat) ("C".toList) 3).items
        = (("C".toList, 3)) :: [("A".toList, (1 : Nat)), ("B".toList, 2)].dropLast :=
  ⟨by decide,
   (lru_evict_promote (⟨2, [("A".toList, 1), ("B".toList, 2)]⟩ : LRUCache Nat)
     (⟨2, [("A".toList, 1), ("B".toList, 2)]⟩ : LRUCache Nat)
     ("C".toList) 3 ("B".toList) (by decide) (by decide) (by decide)).1⟩

theorem addRef_nodup (acc : List Str) (raw : Str) (h : acc.Nodup) :
    (addRef acc raw).Nodup := by
  unfold addRef
  dsimp only
  split
  · exact h
  · next hn => simp [List.nodup_append, h, hn]

theorem foldl_addRef_nodup : ∀ (raws : List Str) (acc : List Str), acc.Nodup →
    (raws.foldl addRef acc).Nodup := by
  intro raws
  induction raws with
  | nil => intro acc h; exact h
  | cons r rs ih => intro acc h; exact ih (addRef acc r) (addRef_nodup acc r h)

theorem extractReferences_nodup (srcPath : Str) (t : SrcTree) :
    (ExtractReferences srcPath t).Nodup := by
  unfold ExtractReferences
  split
  · exact List.nodup_nil
  · dsimp only
    split
    · exact foldl_addRef_nodup _ [] List.nodup_nil
    · exact foldl_addRef_nodup _ [] List.nodup_nil

theorem lastIndexOf_eq_none (c : Char) : ∀ (l : Str), c ∉ l → lastIndexOf c l = none := by
  intro l
  induction l with
  | nil => intro _; rfl
  | cons x xs ih =>
      intro h
      have hx : x ≠ c := fun e => h (e ▸ List.mem_cons_self x xs)
      have hxs : c ∉ xs := fun e => h (List.mem_cons_of_mem x e)
      simp [lastIndexOf, ih hxs, hx]

theorem lastIndexOf_append (c : Char) (ys : Str) (hy : c ∉ ys) :
    ∀ (xs : Str), lastIndexOf c (xs ++ c :: ys) = some xs.length := by
  intro xs
  induction xs with
  | nil => simp [lastIndexOf, lastIndexOf_eq_none c ys hy]
  | cons x xs ih => simp [lastIndexOf, ih]

theorem normalizeArxivID_strips (base ds : Str) (hb : base ≠ []) (hd : ds ≠ [])
    (hdig : ∀ ch ∈ ds, isDigitByte ch = true) :
    normalizeArxivID (base ++ 'v' :: ds) = base := by
  have hv : 'v' ∉ ds := fun hmem => absurd (hdig 'v' hmem) (by decide)
  unfold normalizeArxivID
  rw [lastIndexOf_append 'v' ds hv base]
  dsimp only
  have hlen : 0 < base.length := List.length_pos.2 hb
  rw [if_pos hlen]
  have hdrop : (base ++ 'v' :: ds).drop (base.length + 1) = ds := by
    rw [show base ++ 'v' :: ds = (base ++ ['v']) ++ ds by simp,
        show base.length + 1 = (base ++ ['v']).length by simp]
    exact List.drop_left _ _
  have htake : (base ++ 'v' :: ds).take base.length = base := List.take_left base _
  rw [hdrop, htake]
  have hcond : (ds.all isDigitByte && !ds.isEmpty) = true := by
    rw [Bool.and_eq_true]
    refine ⟨List.all_eq_true.2 hdig, ?_⟩
    cases ds with
    | nil => exact absurd rfl hd
    | cons a l => rfl
  rw [if_pos hcond]

/-- C7: every extracted identifier is normalized (a trailing `'v'`-plus-
digits suffix is stripped) before deduplication, the returned list has no
two equal elements, and a document containing both `2301.00001` and
`2301.00001v3` contributes exactly the single reference `2301.00001`. -/
theorem extractReferences_normalized (srcPath : Str) (t : SrcTree) (base ds : Str)
    (hb : base ≠ []) (hd : ds ≠ []) (hdig : ∀ ch ∈ ds, isDigitByte ch = true) :
    (ExtractReferences srcPath t).Nodup
    ∧ normalizeArxivID (base ++ 'v' :: ds) = base
    ∧ ExtractReferences ("/s".toList)
        ⟨[["2301.00001".toList, "2301.00001v3".toList]], []⟩
        = ["2301.00001".toList] :=
  ⟨extractReferences_nodup srcPath t, normalizeArxivID_strips base ds hb hd hdig,
   by decide⟩

/-- Witness for the C7 theorem: base `2301.00001` with version suffix
`v3`. -/
theorem extractReferences_normalized_witness :
    (("2301.00001".toList : Str) ≠ [] ∧ ("3".toList : Str) ≠ []
      ∧ ∀ ch ∈ ("3".toList : Str), isDigitByte ch = true)
    ∧ normalizeArxivID ("2301.00001".toList ++ 'v' :: "3".toList) = "2301.00001".toList :=
  ⟨by decide,
   (extractReferences_normalized ("/s".toList) ⟨[], []⟩ ("2301.00001".toList)
     ("3".toList) (by decide) (by decide) (by decide)).2.1⟩

theorem foldl_insertCitation (db : DBOracle) (pid : Str) :
    ∀ (refs : List Str) (acc : List Edge), refs.Nodup →
      (∀ r ∈ refs, (pid, r) ∉ acc) →
      refs.foldl (insertCitation db pid) acc
        = acc ++ (refs.filter (fun r => decide (r ≠ pid))).map (fun r => (pid, r)) := by
  intro refs
  induction refs with
  | nil => intro acc _ _; simp
  | cons r rs ih =>
      intro acc hnd hmem
      simp only [List.foldl_cons]
      by_cases hr : r = pid
      · have hstep : insertCitation db pid acc r = acc := by simp [insertCitation, hr]
        rw [hstep, ih acc (List.nodup_cons.1 hnd).2
            (fun x hx => hmem x (List.mem_cons_of_mem r hx))]
        simp [List.filter_cons, hr]
      · have hnotin : (pid, r) ∉ acc := hmem r (List.mem_cons_self r rs)
        have hstep : insertCitation db pid acc r = acc ++ [(pid, r)] := by
          simp [insertCitation, hr, hnotin]
        rw [hstep]
        have hmem' : ∀ x ∈ rs, (pid, x) ∉ acc ++ [(pid, r)] := by
          intro x hx hor
          rcases List.mem_append.1 hor with hin | hin
          · exact hmem x (List.mem_cons_of_mem r hx) hin
          · have hxr : x = r := congrArg Prod.snd (List.mem_singleton.1 hin)
            exact (List.nodup_cons.1 hnd).1 (hxr ▸ hx)
        rw [ih (acc ++ [(pid, r)]) (List.nodup_cons.1 hnd).2 hmem']
        simp [List.filter_cons, hr]

/-- C2 counterexample: the claim demands replace semantics regardless of
prior edges for every source path, but when extraction yields no
references (here an empty tree behind a nonempty path) `UpdateCitations`
returns early without deleting, so a stale edge from the paper
survives. -/
theorem updateCitations_replace_cex :
    ¬ ((UpdateCitations [("A".toList, "B".toList)] ("A".toList) ("/s".toList)
          ⟨[], []⟩ dbOK).1.filter (fun e => decide (e.1 = "A".toList))
        = ((ExtractReferences ("/s".toList) (⟨[], []⟩ : SrcTree)).filter
            (fun r => decide (r ≠ "A".toList))).map (fun r => ("A".toList, r))) := by
  decide

/-- C2 (amended): when the source path is nonempty and extraction yields
at least one reference, the edges from `paperID` after `UpdateCitations`
are exactly one edge per extracted non-self reference, regardless of the
prior contents of the table, and an immediate repeated call (with any
database outcomes) leaves the table unchanged; when the source path is
empty or extraction yields no references the call leaves the table
untouched, so stale edges from the paper may persist. -/
theorem updateCitations_replace (edges : List Edge) (paperID srcPath : Str) (t : SrcTree)
    (db db' : DBOracle) (hpath : srcPath ≠ []) (hrefs : ExtractReferences srcPath t ≠ []) :
    (UpdateCitations edges paperID srcPath t db).1.filter (fun e => decide (e.1 = paperID))
      = ((ExtractReferences srcPath t).filter (fun r => decide (r ≠ paperID))).map
          (fun r => (paperID, r))
    ∧ (UpdateCitations (UpdateCitations edges paperID srcPath t db).1 paperID srcPath t db').1
        = (UpdateCitations edges paperID srcPath t db).1 := by
  have hchar : ∀ (es : List Edge) (d : DBOracle),
      (UpdateCitations es paperID srcPath t d).1
        = es.filter (fun e => decide (e.1 ≠ paperID))
          ++ ((ExtractReferences srcPath t).filter (fun r => decide (r ≠ paperID))).map
              (fun r => (paperID, r)) := by
    intro es d
    unfold UpdateCitations
    rw [if_neg hpath]
    dsimp only
    rw [if_neg hrefs]
    dsimp only
    apply foldl_insertCitation d paperID _ _ (extractReferences_nodup srcPath t)
    intro r _ hmem
    have := (List.mem_filter.1 hmem).2
    simp at this
  constructor
  · rw [hchar edges db, List.filter_append]
    have h1 : (edges.filter (fun e => decide (e.1 ≠ paperID))).filter
        (fun e => decide (e.1 = paperID)) = [] := by
      apply List.filter_eq_nil_iff.2
      intro e he
      have h := (List.mem_filter.1 he).2
      simp only [decide_eq_true_eq] at h ⊢
      exact h
    have h2 : (((ExtractReferences srcPath t).filter
          (fun r => decide (r ≠ paperID))).map (fun r => (paperID, r))).filter
        (fun e => decide (e.1 = paperID))
        = ((ExtractReferences srcPath t).filter
            (fun r => decide (r ≠ paperID))).map (fun r => (paperID, r)) := by
      apply List.filter_eq_self.2
      intro e he
      obtain ⟨r, _, rfl⟩ := List.mem_map.1 he
      simp
    rw [h1, h2, List.nil_append]
  · rw [hchar edges db, hchar _ db', List.filter_append]
    have h3 : ((edges.filter (fun e => decide (e.1 ≠ paperID))).filter
        (fun e => decide (e.1 ≠ paperID)))
        = edges.filter (fun e => decide (e.1 ≠ paperID)) := by
      apply List.filter_eq_self.2
      intro e he
      exact (List.mem_filter.1 he).2
    have h4 : (((ExtractReferences srcPath t).filter
          (fun r => decide (r ≠ paperID))).map (fun r => (paperID, r))).filter
        (fun e => decide (e.1 ≠ paperID)) = [] := by
      apply List.filter_eq_nil_iff.2
      intro e he
      obtain ⟨r, _, rfl⟩ := List.mem_map.1 he
      simp
    rw [h3, h4, List.append_nil]

/-- Witness for the C2 amended theorem: a prior unrelated edge, a source
tree with one extracted reference. -/
theorem updateCitations_replace_witness :
    (("/s".toList : Str) ≠ []
      ∧ ExtractReferences ("/s".toList) ⟨[["2301.00001".toList]], []⟩ ≠ [])
    ∧ (UpdateCitations [("X".toList, "Y".toList)] ("A".toList) ("/s".toList)
          ⟨[["2301.00001".toList]], []⟩ dbOK).1.filter
        (fun e => decide (e.1 = "A".toList))
        = ((ExtractReferences ("/s".toList)
            (⟨[["2301.00001".toList]], []⟩ : SrcTree)).filter
            (fun r => decide (r ≠ "A".toList))).map (fun r => ("A".toList, r)) :=
  ⟨by decide,
   (updateCitations_replace [("X".toList, "Y".toList)] ("A".toList) ("/s".toList)
     ⟨[["2301.00001".toList]], []⟩ dbOK dbOK (by decide) (by decide)).1⟩

theorem graphInv_addNode (st : GraphSt) (id : Str) (node : GraphNode)
    (hid : id = node.id) (h : GraphInv st) : GraphInv (addNode st id node) := by
  unfold addNode
  split
  · exact h
  · next hnone =>
      refine ⟨⟨?_, ?_⟩, h.2⟩
      · have hnot : id ∉ st.nodeSet.map Prod.fst := by
          intro hmem
          obtain ⟨q, hq, hq1⟩ := List.mem_map.1 hmem
          exact hnone (List.find?_isSome.2 ⟨q, hq, by simp [hq1]⟩)
        simp only [List.map_append, List.map_cons, List.map_nil]
        simp [List.nodup_append, h.1.1, hnot]
      · intro p hp
        rcases List.mem_append.1 hp with hin | hin
        · exact h.1.2 p hin
        · rw [List.mem_singleton.1 hin]; exact hid

theorem graphInv_addEdge (st : GraphSt) (f t : Str) (h : GraphInv st) :
    GraphInv (addEdge st f t) := by
  unfold addEdge
  split
  · exact h
  · next hnot =>
      refine ⟨h.1, ?_, ?_⟩
      · simp only [List.map_append, List.map_cons, List.map_nil]
        rw [h.2.1]
      · simp [List.nodup_append, h.2.2, hnot]

theorem foldl_preserves {α σ : Type} (inv : σ → Prop) (f : σ → α → σ)
    (hf : ∀ s a, inv s → inv (f s a)) :
    ∀ (l : List α) (s : σ), inv s → inv (l.foldl f s) := by
  intro l
  induction l with
  | nil => intro s h; exact h
  | cons a l' ih => intro s h; exact ih (f s a) (hf s a h)

/-- Nodes of an invariant-satisfying construction state have pairwise
distinct ids. -/
theorem graphInv_nodes_nodup (st : GraphSt) (h : GraphInv st) :
    ((st.nodeSet.map Prod.snd).map (fun n => n.id)).Nodup := by
  rw [List.map_map]
  have hcg : st.nodeSet.map ((fun n : GraphNode => n.id) ∘ Prod.snd)
      = st.nodeSet.map Prod.fst :=
    List.map_congr_left (fun p hp => (h.1.2 p hp).symm)
  rw [hcg]
  exact h.1.1

/-- Edges of an invariant-satisfying construction state have pairwise
distinct (source, target) pairs. -/
theorem graphInv_edges_nodup (st : GraphSt) (h : GraphInv st) :
    (st.edges.map (fun e => (e.source, e.target))).Nodup := by
  have hkeys : (st.edges.map (fun e => edgeKey e.source e.target)).Nodup := by
    rw [h.2.1]; exact h.2.2
  rw [show (fun e : GraphEdge => edgeKey e.source e.target)
      = (fun q : Str × Str => edgeKey q.1 q.2) ∘ (fun e => (e.source, e.target)) from rfl,
    ← List.map_map] at hkeys
  exact hkeys.of_map _

/-- C8: the graph returned by `GetCitationGraph` has no two nodes with the
same id and no two edges with the same (source, target) pair, whatever
query results feed the construction; and a center with two references
citing each other yields exactly one edge per direction between them, no
matter how often the relationship is reported. -/
theorem getCitationGraph_dedup (center : GraphNode) (refNodes citingNodes : List GraphNode)
    (refRefs : List (Str × Str)) :
    ((GetCitationGraph center refNodes citingNodes refRefs).1.map
        (fun n => n.id)).Nodup
    ∧ ((GetCitationGraph center refNodes citingNodes refRefs).2.map
        (fun e => (e.source, e.target))).Nodup
    ∧ ((GetCitationGraph ⟨"C".toList, [], [], 0, 0, true⟩
          [⟨"A".toList, [], [], 0, 0, true⟩, ⟨"B".toList, [], [], 0, 0, true⟩] []
          [("A".toList, "B".toList), ("B".toList, "A".toList),
           ("A".toList, "B".toList)]).2.filter
        (fun e => decide (e.source = "A".toList ∧ e.target = "B".toList))).length = 1 := by
  have h0 : GraphInv ⟨[], [], []⟩ :=
    ⟨⟨List.nodup_nil, fun p hp => absurd hp (List.not_mem_nil p)⟩, rfl, List.nodup_nil⟩
  have h1 := graphInv_addNode _ center.id center rfl h0
  have h2 := foldl_preserves GraphInv
    (fun st r => addEdge (addNode st r.id r) center.id r.id)
    (fun st r h => graphInv_addEdge _ _ _ (graphInv_addNode st r.id r rfl h))
    refNodes _ h1
  have h3 := foldl_preserves GraphInv
    (fun st n => addEdge (addNode st n.id n) n.id center.id)
    (fun st n h => graphInv_addEdge _ _ _ (graphInv_addNode st n.id n rfl h))
    citingNodes _ h2
  have h4 := foldl_preserves GraphInv
    (fun st e => addEdge st e.1 e.2)
    (fun st e h => graphInv_addEdge _ _ _ h)
    refRefs _ h3
  exact ⟨graphInv_nodes_nodup _ h4, graphInv_edges_nodup _ h4, by decide⟩

/-- C3: when the copy of the PDF response body fails, `downloadPDF`
removes the partial file (net filesystem effect: none) and returns the
error, and `DownloadPaper` returns that error before touching the store,
so `pdf_path` and `pdf_downloaded` remain as they were (unset). -/
theorem downloadPaper_copy_error_clean (root : Str) (st : Store) (fs : FS) (opts : DownloadOpts)
    (sr : SrcResp) (hw : opts.wantPDF = true) (hdl : st.paper.pdfDownloaded = false)
    (hnew : pdfDestPath root st.paper.id ∉ fs) :
    downloadPDF root st.paper.id fs (HttpResp.body true) = (fs, 1, .error DlErr.copy)
    ∧ DownloadPaper root st fs opts (HttpResp.body true) sr
        = (st, fs, 1, some DlErr.copy) := by
  have hpdf : downloadPDF root st.paper.id fs (HttpResp.body true)
      = (fs, 1, .error DlErr.copy) := by
    unfold downloadPDF
    rw [if_neg hnew]
    have : insertPath (pdfDestPath root st.paper.id) fs
        = pdfDestPath root st.paper.id :: fs := by
      unfold insertPath
      rw [if_neg hnew]
    dsimp only
    rw [this, if_pos rfl, List.erase_cons_head]
  refine ⟨hpdf, ?_⟩
  unfold DownloadPaper
  rw [hw, hdl]
  simp only [Bool.not_false, Bool.and_self, if_pos]
  rw [hpdf]

/-- If the source phase of `DownloadPaper` returns without error, the PDF
flag and id are untouched and, when the source artifact was requested, the
source flag is set. -/
theorem sourcePhase_ok (root : Str) (st : Store) (fs : FS) (n : Nat) (opts : DownloadOpts)
    (sr : SrcResp) (st1 : Store) (fs1 : FS) (n1 : Nat)
    (h : sourcePhase root st fs n opts sr = (st1, fs1, n1, none)) :
    st1.paper.pdfDownloaded = st.paper.pdfDownloaded
    ∧ st1.paper.id = st.paper.id
    ∧ (opts.wantSource = true → st1.paper.srcDownloaded = true) := by
  unfold sourcePhase at h
  split at h
  · next hc =>
      split at h
      · next heq => simp only [Prod.mk.injEq] at h; exact absurd h.2.2.2 (by simp)
      · next heq =>
          simp only [Prod.mk.injEq] at h
          rw [← h.1]
          exact ⟨rfl, rfl, fun _ => rfl⟩
  · next hc =>
      simp only [Prod.mk.injEq] at h
      rw [← h.1]
      refine ⟨rfl, rfl, fun hws => ?_⟩
      simp only [Bool.and_eq_true, Bool.not_eq_true', hws, true_and] at hc
      simpa using hc

/-- C4: if a `DownloadPaper` call returns without error, a repeated call
with the same options performs no network request (both download branches
are skipped because the store's flags are set) and leaves the store and
the filesystem exactly as the first call left them. -/
theorem downloadPaper_idempotent (root : Str) (st : Store) (fs : FS) (opts : DownloadOpts)
    (pr : HttpResp) (sr : SrcResp) (pr2 : HttpResp) (sr2 : SrcResp)
    (st1 : Store) (fs1 : FS) (n1 : Nat)
    (h : DownloadPaper root st fs opts pr sr = (st1, fs1, n1, none)) :
    DownloadPaper root st1 fs1 opts pr2 sr2 = (st1, fs1, 0, none) := by
  have hflags : (opts.wantPDF = true → st1.paper.pdfDownloaded = true)
      ∧ (opts.wantSource = true → st1.paper.srcDownloaded = true) := by
    unfold DownloadPaper at h
    split at h
    · next hc =>
        split at h
        · next heq => simp only [Prod.mk.injEq] at h; exact absurd h.2.2.2 (by simp)
        · next heq =>
            obtain ⟨hp, hi, hs⟩ := sourcePhase_ok _ _ _ _ _ _ _ _ _ h
            exact ⟨fun _ => by rw [hp], hs⟩
    · next hc =>
        obtain ⟨hp, hi, hs⟩ := sourcePhase_ok _ _ _ _ _ _ _ _ _ h
        refine ⟨fun hwp => ?_, hs⟩
        rw [hp]
        simp only [Bool.and_eq_true, Bool.not_eq_true', hwp, true_and] at hc
        simpa using hc
  have hc1 : (opts.wantPDF && !st1.paper.pdfDownloaded) = false := by
    cases hwp : opts.wantPDF
    · simp
    · simp [hflags.1 hwp]
  have hc2 : (opts.wantSource && !st1.paper.srcDownloaded) = false := by
    cases hws : opts.wantSource
    · simp
    · simp [hflags.2 hws]
  unfold DownloadPaper
  rw [hc1]
  simp only [Bool.false_eq_true, if_false]
  unfold sourcePhase
  rw [hc2]
  simp only [Bool.false_eq_true, if_false]

/-- Witness for the C3 theorem: a concrete paper whose PDF copy fails. -/
theorem downloadPaper_copy_error_clean_witness :
    ((⟨true, true⟩ : DownloadOpts).wantPDF = true
      ∧ (⟨⟨"2301.00001".toList, none, none, false, false⟩, []⟩
          : Store).paper.pdfDownloaded = false
      ∧ pdfDestPath ("/r".toList)
          (⟨⟨"2301.00001".toList, none, none, false, false⟩, []⟩
            : Store).paper.id ∉ ([] : FS))
    ∧ DownloadPaper ("/r".toList)
        (⟨⟨"2301.00001".toList, none, none, false, false⟩, []⟩ : Store) ([] : FS)
        ⟨true, true⟩ (HttpResp.body true) (SrcResp.body false ⟨[], []⟩)
        = (⟨⟨"2301.00001".toList, none, none, false, false⟩, []⟩, [], 1,
           some DlErr.copy) :=
  ⟨by decide,
   (downloadPaper_copy_error_clean ("/r".toList)
     (⟨⟨"2301.00001".toList, none, none, false, false⟩, []⟩ : Store) ([] : FS)
     ⟨true, true⟩ (SrcResp.body false ⟨[], []⟩) rfl rfl (by decide)).2⟩

/-- Witness for the C4 theorem: a concrete fully-successful first call
followed by a second call that performs no request. -/
theorem downloadPaper_idempotent_witness :
    DownloadPaper ("/r".toList)
        (⟨⟨"2301.00001".toList, none, none, false, false⟩, []⟩ : Store) ([] : FS)
        ⟨true, true⟩ (HttpResp.body false) (SrcResp.body false ⟨[], []⟩)
      = (⟨⟨"2301.00001".toList, some (pdfDestPath ("/r".toList) ("2301.00001".toList)),
            some (srcDestPath ("/r".toList) ("2301.00001".toList)), true, true⟩, []⟩,
         [srcDestPath ("/r".toList) ("2301.00001".toList),
          pdfDestPath ("/r".toList) ("2301.00001".toList)], 2, none)
    ∧ DownloadPaper ("/r".toList)
        (⟨⟨"2301.00001".toList, some (pdfDestPath ("/r".toList) ("2301.00001".toList)),
            some (srcDestPath ("/r".toList) ("2301.00001".toList)), true, true⟩, []⟩)
        [srcDestPath ("/r".toList) ("2301.00001".toList),
         pdfDestPath ("/r".toList) ("2301.00001".toList)]
        ⟨true, true⟩ HttpResp.netErr SrcResp.netErr
      = (⟨⟨"2301.00001".toList, some (pdfDestPath ("/r".toList) ("2301.00001".toList)),
            some (srcDestPath ("/r".toList) ("2301.00001".toList)), true, true⟩, []⟩,
         [srcDestPath ("/r".toList) ("2301.00001".toList),
          pdfDestPath ("/r".toList) ("2301.00001".toList)], 0, none) :=
  ⟨by decide,
   downloadPaper_idempotent ("/r".toList)
     (⟨⟨"2301.00001".toList, none, none, false, false⟩, []⟩ : Store) ([] : FS)
     ⟨true, true⟩ (HttpResp.body false) (SrcResp.body false ⟨[], []⟩)
     HttpResp.netErr SrcResp.netErr _ _ 2 (by decide)⟩

/-- Loop invariant of the harvester: whatever was consumed is split
between the committed store and the in-memory batch (which stays below the
batch size), and every emitted snapshot satisfies the same accounting. -/
theorem syncLoop_events (batchSize : Nat) (hbs : 1 ≤ batchSize) :
    ∀ (pages : List PageResp) (st : SyncSt) (curToken : Str)
      (ctp consumed : List (List Str)),
      st.committed ++ st.batch = consumed.flatten →
      st.batch.length < batchSize →
      ctp <+: consumed →
      (∀ ev ∈ st.events, ev.committed ++ ev.batch = ev.consumed.flatten
        ∧ ev.tokenPages <+: ev.consumed ∧ ev.batch.length < batchSize) →
      ∀ ev ∈ (syncLoop batchSize st curToken ctp consumed pages).events,
        ev.committed ++ ev.batch = ev.consumed.flatten
        ∧ ev.tokenPages <+: ev.consumed ∧ ev.batch.length < batchSize := by
  intro pages
  induction pages with
  | nil =>
      intro st curToken ctp consumed _ _ _ hevents ev hev
      exact hevents ev hev
  | cons pg rest ih =>
      intro st curToken ctp consumed hacct hlen hctp hevents ev hev
      cases pg with
      | fail =>
          unfold syncLoop at hev
          split at hev
          · rcases List.mem_append.1 hev with hin | hin
            · exact hevents ev hin
            · rw [List.mem_singleton.1 hin]
              exact ⟨hacct, hctp, hlen⟩
          · exact hevents ev hev
      | ok ps tok =>
          unfold syncLoop at hev
          dsimp only at hev
          by_cases hb : batchSize ≤ (st.batch ++ ps).length
          · rw [if_pos hb] at hev
            dsimp only at hev
            have hacct1 : (st.committed ++ (st.batch ++ ps)) ++ ([] : List Str)
                = (consumed ++ [ps]).flatten := by
              simp [← hacct]
            split at hev
            · refine ih _ tok _ _ hacct1 (by simpa using hbs) List.prefix_rfl ?_ ev hev
              intro e he
              rcases List.mem_append.1 he with hin | hin
              · exact hevents e hin
              · rw [List.mem_singleton.1 hin]
                exact ⟨hacct1, List.prefix_rfl, by simpa using hbs⟩
            · exact hevents ev hev
          · rw [if_neg hb] at hev
            dsimp only at hev
            have hacct1 : st.committed ++ (st.batch ++ ps)
                = (consumed ++ [ps]).flatten := by
              simp [← hacct]
            have hlen1 : (st.batch ++ ps).length < batchSize := Nat.lt_of_not_le hb
            split at hev
            · refine ih _ tok _ _ hacct1 hlen1 List.prefix_rfl ?_ ev hev
              intro e he
              rcases List.mem_append.1 he with hin | hin
              · exact hevents e hin
              · rw [List.mem_singleton.1 hin]
                exact ⟨hacct1, List.prefix_rfl, hlen1⟩
            · exact hevents ev hev

/-- C1 counterexample: with the default batch size, one successful page of
one record and a continuation token persists the token (snapshot: empty
committed store, the record still in the batch), so a moment exists at
which the persisted cursor points past a page whose records were not
committed. -/
theorem syncMetadata_cursor_cex :
    ¬ (∀ ev ∈ (SyncMetadata 0 [] [PageResp.ok ["p1".toList] ("t1".toList)]).events,
        ∀ ps ∈ ev.tokenPages, ∀ q ∈ ps, q ∈ ev.committed) := by decide

/-- C1 (amended): at every moment at which `SyncMetadata` persists a
resumption token, every record of every page consumed so far is either
committed to the store or still held in the in-memory batch, the batch
holds fewer than BatchSize records, and the pages up to the page that
produced the persisted token are a prefix of the pages consumed; records
of a partially-filled batch are not yet committed at that moment, so an
interruption can lose them while the cursor points past their page. -/
theorem syncMetadata_cursor_amended (batchSizeOpt : Nat) (initToken : Str)
    (pages : List PageResp) (ev : SyncEvent)
    (hev : ev ∈ (SyncMetadata batchSizeOpt initToken pages).events) :
    ev.committed ++ ev.batch = ev.consumed.flatten
    ∧ ev.tokenPages <+: ev.consumed
    ∧ ev.batch.length < (if batchSizeOpt = 0 then 1000 else batchSizeOpt) := by
  have hbs : 1 ≤ (if batchSizeOpt = 0 then 1000 else batchSizeOpt) := by
    split <;> omega
  unfold SyncMetadata at hev
  exact syncLoop_events _ hbs pages _ initToken [] [] (by simp) (by simpa using hbs)
    List.prefix_rfl (fun e he => absurd he (List.not_mem_nil e)) ev hev

/-- Witness for the C1 amended theorem: the one-page run of the
counterexample; its single snapshot satisfies the amended accounting. -/
theorem syncMetadata_cursor_amended_witness :
    ((⟨[], ["p1".toList], "t1".toList, [["p1".toList]], [["p1".toList]]⟩ : SyncEvent)
        ∈ (SyncMetadata 0 [] [PageResp.ok ["p1".toList] ("t1".toList)]).events)
    ∧ ((⟨[], ["p1".toList], "t1".toList, [["p1".toList]], [["p1".toList]]⟩
          : SyncEvent).committed
        ++ (⟨[], ["p1".toList], "t1".toList, [["p1".toList]], [["p1".toList]]⟩
          : SyncEvent).batch
        = (⟨[], ["p1".toList], "t1".toList, [["p1".toList]], [["p1".toList]]⟩
          : SyncEvent).consumed.flatten) :=
  ⟨by decide,
   (syncMetadata_cursor_amended 0 [] [PageResp.ok ["p1".toList] ("t1".toList)]
     ⟨[], ["p1".toList], "t1".toList, [["p1".toList]], [["p1".toList]]⟩
     (by decide)).1⟩

theorem splitSlash_ne_nil (l : Str) : splitSlash l ≠ [] := by
  induction l with
  | nil => simp [splitSlash]
  | cons c cs ih =>
      unfold splitSlash
      rcases h : splitSlash cs with _ | ⟨g, gs⟩
      · exact absurd h ih
      · dsimp only
        split <;> simp

theorem splitSlash_cons (c : Char) (cs : Str) (g : Str) (gs : List Str)
    (h : splitSlash cs = g :: gs) :
    splitSlash (c :: cs) = if c = '/' then [] :: g :: gs else (c :: g) :: gs := by
  unfold splitSlash
  rw [h]

theorem splitSlash_append (a b : Str) :
    splitSlash (a ++ '/' :: b) = splitSlash a ++ splitSlash b := by
  induction a with
  | nil =>
      rcases hb : splitSlash b with _ | ⟨g, gs⟩
      · exact absurd hb (splitSlash_ne_nil b)
      · rw [List.nil_append, splitSlash_cons '/' b g gs hb, if_pos rfl]
        simp [splitSlash, hb]
  | cons c cs ih =>
      rcases h : splitSlash cs with _ | ⟨g, gs⟩
      · exact absurd h (splitSlash_ne_nil cs)
      · have h2 : splitSlash (cs ++ '/' :: b) = g :: (gs ++ splitSlash b) := by
          rw [ih, h]; rfl
        rw [show (c :: cs) ++ '/' :: b = c :: (cs ++ '/' :: b) from rfl,
          splitSlash_cons c _ _ _ h2, splitSlash_cons c cs g gs h]
        by_cases hc : c = '/'
        · rw [if_pos hc, if_pos hc]; simp
        · rw [if_neg hc, if_neg hc]; simp

theorem splitSlash_no_slash (l : Str) : ∀ g ∈ splitSlash l, '/' ∉ g := by
  induction l with
  | nil => simp [splitSlash]
  | cons c cs ih =>
      rcases h : splitSlash cs with _ | ⟨g, gs⟩
      · exact absurd h (splitSlash_ne_nil cs)
      · rw [splitSlash_cons c cs g gs h]
        rw [h] at ih
        by_cases hc : c = '/'
        · rw [if_pos hc]
          intro x hx
          rcases List.mem_cons.1 hx with rfl | hx2
          · simp
          · exact ih x hx2
        · rw [if_neg hc]
          intro x hx
          rcases List.mem_cons.1 hx with rfl | hx2
          · intro hmem
            rcases List.mem_cons.1 hmem with h1 | h1
            · exact hc h1.symm
            · exact ih g (List.mem_cons_self g gs) h1
          · exact ih x (List.mem_cons_of_mem g hx2)

theorem pathElems_append (a b : Str) :
    pathElems (a ++ '/' :: b) = pathElems a ++ pathElems b := by
  unfold pathElems
  rw [splitSlash_append, List.filter_append]

theorem pathElems_wf (p : Str) :
    ∀ g ∈ pathElems p, g ≠ [] ∧ g ≠ ['.'] ∧ '/' ∉ g := by
  intro g hg
  have hmem := List.mem_filter.1 hg
  have h2 := hmem.2
  refine ⟨?_, ?_, splitSlash_no_slash p g hmem.1⟩
  · intro he
    subst he
    simp at h2
  · intro he
    subst he
    simp at h2

theorem cleanElems_no_dd (r : Bool) :
    ∀ (l acc : List Str), ['.', '.'] ∉ l →
      cleanElems r acc l = acc.reverse ++ l := by
  intro l
  induction l with
  | nil => intro acc _; simp [cleanElems]
  | cons c cs ih =>
      intro acc h
      have hc : c ≠ ['.', '.'] := fun e => h (e ▸ List.mem_cons_self c cs)
      have hcs : ['.', '.'] ∉ cs := fun e => h (List.mem_cons_of_mem c e)
      unfold cleanElems
      rw [if_neg hc, ih (c :: acc) hcs]
      simp

theorem cleanElems_eq_push (r : Bool) (acc : List Str) (c : Str) (cs : List Str)
    (hc : c ≠ ['.', '.']) : cleanElems r acc (c :: cs) = cleanElems r (c :: acc) cs := by
  conv_lhs => rw [cleanElems.eq_def]
  dsimp only
  rw [if_neg hc]

theorem cleanElems_eq_dd_nil_true (cs : List Str) :
    cleanElems true [] (['.', '.'] :: cs) = cleanElems true [] cs := by
  simp [cleanElems]

theorem cleanElems_eq_dd_nil_false (cs : List Str) :
    cleanElems false [] (['.', '.'] :: cs) = cleanElems false [['.', '.']] cs := by
  simp [cleanElems]

theorem cleanElems_eq_dd_dd (r : Bool) (rest cs : List Str) :
    cleanElems r (['.', '.'] :: rest) (['.', '.'] :: cs)
      = cleanElems r (['.', '.'] :: ['.', '.'] :: rest) cs := by
  simp [cleanElems]

theorem cleanElems_eq_dd_pop (r : Bool) (top : Str) (rest cs : List Str)
    (ht : top ≠ ['.', '.']) :
    cleanElems r (top :: rest) (['.', '.'] :: cs) = cleanElems r rest cs := by
  conv_lhs => rw [cleanElems.eq_def]
  dsimp only
  rw [if_pos rfl, if_neg ht]

theorem cleanElems_mem (r : Bool) :
    ∀ (l acc : List Str) (x : Str), x ∈ cleanElems r acc l →
      x ∈ acc ∨ x ∈ l ∨ x = ['.', '.'] := by
  intro l
  induction l with
  | nil =>
      intro acc x hx
      rw [show cleanElems r acc [] = acc.reverse from rfl] at hx
      exact Or.inl (List.mem_reverse.1 hx)
  | cons c cs ih =>
      intro acc x hx
      by_cases hc : c = ['.', '.']
      · subst hc
        rcases acc with _ | ⟨top, rest⟩
        · cases r with
          | true =>
              rw [cleanElems_eq_dd_nil_true] at hx
              rcases ih [] x hx with h | h | h
              · exact absurd h (List.not_mem_nil x)
              · exact Or.inr (Or.inl (List.mem_cons_of_mem _ h))
              · exact Or.inr (Or.inr h)
          | false =>
              rw [cleanElems_eq_dd_nil_false] at hx
              rcases ih [['.', '.']] x hx with h | h | h
              · exact Or.inr (Or.inr (List.mem_singleton.1 h))
              · exact Or.inr (Or.inl (List.mem_cons_of_mem _ h))
              · exact Or.inr (Or.inr h)
        · by_cases ht : top = ['.', '.']
          · subst ht
            rw [cleanElems_eq_dd_dd] at hx
            rcases ih _ x hx with h | h | h
            · rcases List.mem_cons.1 h with rfl | h2
              · exact Or.inr (Or.inr rfl)
              · exact Or.inl h2
            · exact Or.inr (Or.inl (List.mem_cons_of_mem _ h))
            · exact Or.inr (Or.inr h)
          · rw [cleanElems_eq_dd_pop r top rest cs ht] at hx
            rcases ih rest x hx with h | h | h
            · exact Or.inl (List.mem_cons_of_mem top h)
            · exact Or.inr (Or.inl (List.mem_cons_of_mem _ h))
            · exact Or.inr (Or.inr h)
      · rw [cleanElems_eq_push r acc c cs hc] at hx
        rcases ih (c :: acc) x hx with h | h | h
        · rcases List.mem_cons.1 h with rfl | h2
          · exact Or.inr (Or.inl (List.mem_cons_self _ _))
          · exact Or.inl h2
        · exact Or.inr (Or.inl (List.mem_cons_of_mem c h))
        · exact Or.inr (Or.inr h)

theorem cleanElems_dd_structure (r : Bool) :
    ∀ (l : List Str) (xs : List Str) (k : Nat),
      ['.', '.'] ∉ xs → (r = true → k = 0) →
      ∃ ys m, cleanElems r (xs ++ List.replicate k ['.', '.']) l
          = List.replicate m ['.', '.'] ++ ys
        ∧ ['.', '.'] ∉ ys ∧ (r = true → m = 0) := by
  intro l
  induction l with
  | nil =>
      intro xs k hxs hk
      refine ⟨xs.reverse, k, ?_, by simpa using hxs, hk⟩
      rw [show cleanElems r (xs ++ List.replicate k ['.', '.']) []
          = (xs ++ List.replicate k ['.', '.']).reverse from rfl]
      simp [List.reverse_append, List.reverse_replicate]
  | cons c cs ih =>
      intro xs k hxs hk
      by_cases hc : c = ['.', '.']
      · subst hc
        cases xs with
        | nil =>
            cases k with
            | zero =>
                simp only [List.nil_append, List.replicate_zero]
                cases r with
                | true =>
                    rw [cleanElems_eq_dd_nil_true]
                    simpa using ih [] 0 (by simp) (fun _ => rfl)
                | false =>
                    rw [cleanElems_eq_dd_nil_false]
                    simpa using ih [] 1 (by simp) (by simp)
            | succ k' =>
                cases r with
                | true => exact absurd (hk rfl) (by simp)
                | false =>
                    rw [show ([] : List Str) ++ List.replicate (k' + 1) ['.', '.']
                        = ['.', '.'] :: List.replicate k' ['.', '.']
                      by simp [List.replicate_succ]]
                    rw [cleanElems_eq_dd_dd]
                    have := ih [] (k' + 2) (by simp) (by simp)
                    simpa [List.replicate_succ] using this
        | cons x0 xs' =>
            have hx0 : x0 ≠ ['.', '.'] :=
              fun e => hxs (e ▸ List.mem_cons_self x0 xs')
            rw [show (x0 :: xs') ++ List.replicate k ['.', '.']
                = x0 :: (xs' ++ List.replicate k ['.', '.']) from rfl]
            rw [cleanElems_eq_dd_pop r x0 _ cs hx0]
            exact ih xs' k (fun e => hxs (List.mem_cons_of_mem x0 e)) hk
      · rw [cleanElems_eq_push r _ c cs hc,
          show c :: (xs ++ List.replicate k ['.', '.'])
            = (c :: xs) ++ List.replicate k ['.', '.'] from rfl]
        refine ih (c :: xs) k ?_ hk
        intro hmem
        rcases List.mem_cons.1 hmem with h1 | h1
        · exact hc h1.symm
        · exact hxs h1

theorem isPrefixOf_of_prefix : ∀ (l1 l2 : Str), l1 <+: l2 → l1.isPrefixOf l2 = true := by
  intro l1
  induction l1 with
  | nil =>
      intro l2 _
      cases l2 with
      | nil => rfl
      | cons b bs => rfl
  | cons a as ih =>
      intro l2 hp
      obtain ⟨t, rfl⟩ := hp
      have hstep : (a :: as).isPrefixOf (a :: (as ++ t))
          = (a == a && as.isPrefixOf (as ++ t)) := rfl
      rw [List.cons_append, hstep, beq_self_eq_true, Bool.true_and]
      exact ih _ ⟨t, rfl⟩

theorem splitSlash_of_no_slash (g : Str) (h : '/' ∉ g) : splitSlash g = [g] := by
  induction g with
  | nil => rfl
  | cons c cs ih =>
      have hcs : '/' ∉ cs := fun e => h (List.mem_cons_of_mem c e)
      have hc : ¬ c = '/' := fun e => h (by rw [e]; exact List.mem_cons_self '/' cs)
      rw [splitSlash_cons c cs cs [] (ih hcs), if_neg hc]

theorem interS_cons (a : Str) (l : List Str) (h : l ≠ []) :
    interS (a :: l) = a ++ '/' :: interS l := by
  cases l with
  | nil => exact absurd rfl h
  | cons b bs => rfl

theorem interS_append (A B : List Str) (hA : A ≠ []) (hB : B ≠ []) :
    interS (A ++ B) = interS A ++ '/' :: interS B := by
  induction A with
  | nil => exact absurd rfl hA
  | cons a A' ih =>
      cases A' with
      | nil =>
          rw [show ([a] : List Str) ++ B = a :: B from rfl, interS_cons a B hB]
          rfl
      | cons a2 A'' =>
          have hA' : a2 :: A'' ≠ [] := by simp
          have h1 : (a2 :: A'') ++ B ≠ [] := by simp
          rw [show (a :: a2 :: A'') ++ B = a :: ((a2 :: A'') ++ B) from rfl,
            interS_cons a _ h1, ih hA', interS_cons a (a2 :: A'') hA']
          simp

theorem splitSlash_interS : ∀ (l : List Str),
    (∀ g ∈ l, g ≠ [] ∧ g ≠ ['.'] ∧ '/' ∉ g) →
    (splitSlash (interS l)).filter (fun g => !(g.isEmpty || g == ['.'])) = l := by
  intro l
  induction l with
  | nil => intro _; rfl
  | cons a l' ih =>
      intro h
      have ha := h a (List.mem_cons_self a l')
      have hkeep : (!(a.isEmpty || a == ['.'])) = true := by
        simp only [Bool.not_eq_true', Bool.or_eq_false_iff]
        constructor
        · cases a with
          | nil => exact absurd rfl ha.1
          | cons x xs => rfl
        · exact beq_eq_false_iff_ne.2 ha.2.1
      have hfa : List.filter (fun g => !(g.isEmpty || g == ['.'])) [a] = [a] := by
        simp only [List.filter_cons, hkeep, if_true, List.filter_nil]
      cases l' with
      | nil =>
          rw [show interS [a] = a from rfl, splitSlash_of_no_slash a ha.2.2]
          exact hfa
      | cons b l2 =>
          have hb : b :: l2 ≠ [] := by simp
          rw [interS_cons a (b :: l2) hb, splitSlash_append,
            splitSlash_of_no_slash a ha.2.2, List.filter_append, hfa,
            ih (fun g hg => h g (List.mem_cons_of_mem a hg))]
          rfl

theorem pathElems_renderPath (r : Bool) (l : List Str)
    (h : ∀ g ∈ l, g ≠ [] ∧ g ≠ ['.'] ∧ '/' ∉ g) : pathElems (renderPath r l) = l := by
  cases r with
  | true =>
      have hr : renderPath true l = '/' :: interS l := by
        unfold renderPath
        rw [if_pos rfl]
      rw [hr]
      unfold pathElems
      rcases hs : splitSlash (interS l) with _ | ⟨g, gs⟩
      · exact absurd hs (splitSlash_ne_nil _)
      · rw [splitSlash_cons '/' (interS l) g gs hs, if_pos rfl,
          List.filter_cons_of_neg (by simp), ← hs]
        exact splitSlash_interS l h
  | false =>
      by_cases hl : l = []
      · subst hl
        decide
      · have hr : renderPath false l = interS l := by
          unfold renderPath
          rw [if_neg Bool.false_ne_true, if_neg hl]
        rw [hr]
        exact splitSlash_interS l h

theorem cleanElems_wf (r : Bool) (p : Str) :
    ∀ g ∈ cleanElems r [] (pathElems p), g ≠ [] ∧ g ≠ ['.'] ∧ '/' ∉ g := by
  intro g hg
  rcases cleanElems_mem r (pathElems p) [] g hg with h | h | h
  · exact absurd h (List.not_mem_nil g)
  · exact pathElems_wf p g h
  · subst h
    exact ⟨by decide, by decide, by decide⟩

theorem pathElems_cleanPath (p : Str) :
    pathElems (cleanPath p) = cleanElems (isRooted p) [] (pathElems p) := by
  unfold cleanPath
  exact pathElems_renderPath _ _ (cleanElems_wf _ p)

theorem cleanPath_no_dd (p : Str)
    (h : (['.', '.'] : Str).isPrefixOf (cleanPath p) = false) :
    ['.', '.'] ∉ pathElems (cleanPath p) := by
  obtain ⟨ys, m, heq, hys, hroot⟩ :=
    cleanElems_dd_structure (isRooted p) (pathElems p) [] 0 (by simp) (fun _ => rfl)
  simp only [List.replicate_zero, List.nil_append, List.append_nil] at heq
  rw [pathElems_cleanPath, heq]
  intro hmem
  rcases List.mem_append.1 hmem with hin | hin
  · cases m with
    | zero => simp at hin
    | succ m' =>
        cases hr : isRooted p with
        | true => exact Nat.succ_ne_zero m' (hroot hr)
        | false =>
            have heq' : cleanElems false [] (pathElems p)
                = List.replicate (m' + 1) ['.', '.'] ++ ys := by rw [← hr]; exact heq
            have hcp : cleanPath p
                = interS (['.', '.'] :: (List.replicate m' ['.', '.'] ++ ys)) := by
              unfold cleanPath
              rw [hr, heq', List.replicate_succ, List.cons_append]
              unfold renderPath
              rw [if_neg Bool.false_ne_true, if_neg (by simp)]
            have hpre : (['.', '.'] : Str) <+: cleanPath p := by
              rw [hcp]
              cases hcase : List.replicate m' ['.', '.'] ++ ys with
              | nil => exact List.prefix_refl _
              | cons u us =>
                  rw [interS_cons _ (u :: us) (by simp)]
                  exact List.prefix_append _ _
            have := isPrefixOf_of_prefix _ _ hpre
            rw [h] at this
            exact Bool.false_ne_true this
  · exact hys hin

theorem isRooted_append (d x : Str) (hd : d ≠ []) : isRooted (d ++ x) = isRooted d := by
  cases d with
  | nil => exact absurd rfl hd
  | cons c cs => rfl

theorem renderPath_ne_nil_eq (r : Bool) (l : List Str) (hl : l ≠ []) :
    renderPath r l = (if r then ['/'] else []) ++ interS l := by
  unfold renderPath
  cases r with
  | true => rw [if_pos rfl, if_pos rfl]; rfl
  | false =>
      rw [if_neg Bool.false_ne_true, if_neg Bool.false_ne_true, if_neg hl]
      rfl

theorem joinPath_inside (dst p : Str)
    (hclean : cleanPath dst = dst) (hne : pathElems dst ≠ [])
    (hdd : ['.', '.'] ∉ pathElems dst)
    (hp : (['.', '.'] : Str).isPrefixOf (cleanPath p) = false) :
    joinPath dst (cleanPath p) = dst ∨ dst ++ ['/'] <+: joinPath dst (cleanPath p) := by
  have hNdd : ['.', '.'] ∉ pathElems (cleanPath p) := cleanPath_no_dd p hp
  have hdne : dst ≠ [] := fun h0 => hne (by rw [h0]; decide)
  have hD : cleanElems (isRooted dst) [] (pathElems dst) = pathElems dst := by
    simpa using cleanElems_no_dd (isRooted dst) (pathElems dst) [] hdd
  have hdst_render : renderPath (isRooted dst) (pathElems dst) = dst := by
    conv_rhs => rw [← hclean]
    unfold cleanPath
    rw [hD]
  set n := cleanPath p with hn
  have hdm : ['.', '.'] ∉ pathElems dst ++ pathElems n := by
    intro hmem
    rcases List.mem_append.1 hmem with h1 | h1
    · exact hdd h1
    · exact hNdd h1
  have hjoin : joinPath dst n
      = renderPath (isRooted dst) (pathElems dst ++ pathElems n) := by
    unfold joinPath cleanPath
    rw [isRooted_append dst ('/' :: n) hdne, pathElems_append,
      cleanElems_no_dd (isRooted dst) (pathElems dst ++ pathElems n) [] hdm,
      List.reverse_nil, List.nil_append]
  rcases hNe : pathElems n with _ | ⟨n0, N'⟩
  · left
    rw [hjoin, hNe, List.append_nil]
    exact hdst_render
  · right
    rw [hjoin, hNe, renderPath_ne_nil_eq _ _ (by simp),
      interS_append _ _ hne (by simp)]
    have hdst2 : dst
        = (if isRooted dst then ['/'] else ([] : Str)) ++ interS (pathElems dst) := by
      conv_lhs => rw [← hdst_render]
      rw [renderPath_ne_nil_eq _ _ hne]
    rw [show (if isRooted dst then ['/'] else ([] : Str))
          ++ (interS (pathElems dst) ++ '/' :: interS (n0 :: N'))
        = ((if isRooted dst then ['/'] else ([] : Str)) ++ interS (pathElems dst))
          ++ '/' :: interS (n0 :: N') by simp]
    rw [← hdst2]
    exact ⟨interS (n0 :: N'), by simp⟩

/-- C5: a tar entry whose cleaned name begins with `".."` is skipped
without writing anything and extraction continues with the remaining
entries; and for a clean destination directory, every path written by the
entry loop is the destination itself or lies strictly inside it. -/
theorem extractSource_traversal (dst : Str) (entries es1 es2 : List TarEntry)
    (bad : TarEntry)
    (hclean : cleanPath dst = dst) (hne : pathElems dst ≠ [])
    (hdd : (['.', '.'] : Str) ∉ pathElems dst)
    (hbad : (['.', '.'] : Str).isPrefixOf (cleanPath bad.name) = true) :
    extractSourceWrites dst (es1 ++ bad :: es2) = extractSourceWrites dst (es1 ++ es2)
    ∧ ∀ q ∈ extractSourceWrites dst entries, q = dst ∨ dst ++ ['/'] <+: q := by
  constructor
  · unfold extractSourceWrites
    have hwb : entryWrites dst bad = [] := by
      unfold entryWrites
      dsimp only
      rw [if_pos hbad]
    rw [List.map_append, List.map_cons, List.map_append, hwb]
    simp
  · intro q hq
    unfold extractSourceWrites at hq
    rw [List.mem_flatten] at hq
    obtain ⟨w, hw, hqw⟩ := hq
    obtain ⟨e, he, rfl⟩ := List.mem_map.1 hw
    unfold entryWrites at hqw
    dsimp only at hqw
    by_cases hpr : (['.', '.'] : Str).isPrefixOf (cleanPath e.name) = true
    · rw [if_pos hpr] at hqw
      exact absurd hqw (List.not_mem_nil q)
    · rw [if_neg hpr] at hqw
      have hpf : (['.', '.'] : Str).isPrefixOf (cleanPath e.name) = false := by
        rwa [Bool.not_eq_true] at hpr
      cases hfl : e.flag with
      | dir =>
          rw [hfl] at hqw
          rw [List.mem_singleton.1 hqw]
          exact joinPath_inside dst e.name hclean hne hdd hpf
      | reg =>
          rw [hfl] at hqw
          rw [List.mem_singleton.1 hqw]
          exact joinPath_inside dst e.name hclean hne hdd hpf
      | other =>
          rw [hfl] at hqw
          exact absurd hqw (List.not_mem_nil q)

/-- Witness for the C5 theorem: a concrete destination with a
`../../etc/passwd` entry and an ordinary entry. -/
theorem extractSource_traversal_witness :
    (cleanPath ("/data/src/2301/2301.00001".toList)
        = "/data/src/2301/2301.00001".toList
      ∧ pathElems ("/data/src/2301/2301.00001".toList) ≠ []
      ∧ (['.', '.'] : Str) ∉ pathElems ("/data/src/2301/2301.00001".toList)
      ∧ (['.', '.'] : Str).isPrefixOf
          (cleanPath ("../../etc/passwd".toList)) = true)
    ∧ extractSourceWrites ("/data/src/2301/2301.00001".toList)
        ([] ++ (⟨"../../etc/passwd".toList, TypeFlag.reg⟩ : TarEntry)
            :: [⟨"main.tex".toList, TypeFlag.reg⟩])
        = extractSourceWrites ("/data/src/2301/2301.00001".toList)
            ([] ++ [⟨"main.tex".toList, TypeFlag.reg⟩]) :=
  ⟨by decide,
   (extractSource_traversal ("/data/src/2301/2301.00001".toList)
     [⟨"../../etc/passwd".toList, TypeFlag.reg⟩, ⟨"main.tex".toList, TypeFlag.reg⟩]
     [] [⟨"main.tex".toList, TypeFlag.reg⟩]
     ⟨"../../etc/passwd".toList, TypeFlag.reg⟩
     (by decide) (by decide) (by decide) (by decide)).1⟩

end ArxivSpec
